import Mathlib

/-!
Verification of the `pem` crate (est31/pem-rs, `src/lib.rs`).

The crate scans an input string with the fixed pattern

  `(?s)-----BEGIN (?P<begin>.*?)-----\s*(?P<data>.*?)-----END (?P<end>.*?)-----\s*`

(`PEM_SECTION`), validates that the `begin` and `end` captures agree,
strips `'\n'` and `' '` from the `data` capture, and base64-decodes it.
`parse` processes only the first match; `parse_many` processes every
non-overlapping match in order.

The scanner below embeds the leftmost-first matching semantics of this
fixed pattern on `List Char` input: the match starts at the leftmost
position where the literal `-----BEGIN ` occurs and the whole pattern can
complete; each lazy capture (`.*?` before a literal) takes the shortest
span ending at an occurrence of its following literal; each `\s*` takes
the maximal whitespace run.  For this particular pattern these local
choices coincide with full backtracking search, because the literals that
follow `\s*` begin with `'-'`, which is not whitespace, so backtracking
into a whitespace run can never expose an additional literal occurrence,
and occurrences available to a longer lazy capture are always a subset of
those available to a shorter one.
-/

/-- Unicode white space: the character class matched by the pattern
element `\s` of the scanner (the regex crate's default Unicode `\s`). -/
def isWsChar (c : Char) : Bool :=
  c == ' ' || c == '\t' || c == '\n' || c == '\x0B' || c == '\x0C' || c == '\r' ||
  c.toNat == 0x85 || c.toNat == 0xA0 || c.toNat == 0x1680 ||
  (decide (0x2000 ≤ c.toNat) && decide (c.toNat ≤ 0x200A)) ||
  c.toNat == 0x2028 || c.toNat == 0x2029 || c.toNat == 0x202F ||
  c.toNat == 0x205F || c.toNat == 0x3000

/-- The literal `-----BEGIN ` opening the pattern `PEM_SECTION`. -/
def beginLit : List Char := ['-', '-', '-', '-', '-', 'B', 'E', 'G', 'I', 'N', ' ']

/-- The literal `-----` closing each label in `PEM_SECTION`. -/
def dashes : List Char := ['-', '-', '-', '-', '-']

/-- The literal `-----END ` opening the closing marker in `PEM_SECTION`. -/
def endLit : List Char := ['-', '-', '-', '-', '-', 'E', 'N', 'D', ' ']

/-- Consume a literal at the current position, or fail. -/
def dropLit (lit s : List Char) : Option (List Char) :=
  if lit.isPrefixOf s then some (s.drop lit.length) else none

/-- Lazy capture up to a literal: return the shortest prefix `p` of `s`
such that `lit` occurs immediately after `p`, together with the text
after that occurrence.  This is `(?s)(.*?)` followed by the literal. -/
def capTo (lit : List Char) : List Char → Option (List Char × List Char)
  | [] => if lit.isEmpty then some ([], []) else none
  | c :: rest =>
    if lit.isPrefixOf (c :: rest) then some ([], (c :: rest).drop lit.length)
    else
      match capTo lit rest with
      | some (p, r) => some (c :: p, r)
      | none => none

/-- Greedy `\s*`: consume the maximal whitespace run. -/
def dropWs (s : List Char) : List Char := s.dropWhile isWsChar

/-- The three captures of one `PEM_SECTION` match. -/
structure Caps where
  begin : List Char
  data : List Char
  end_ : List Char
deriving DecidableEq, Repr

/-- Attempt to match `PEM_SECTION` anchored at the start of `s`; on
success return the captures and the text after the consumed span
(the trailing `\s*` included). -/
def matchAt (s : List Char) : Option (Caps × List Char) :=
  match dropLit beginLit s with
  | none => none
  | some r1 =>
    match capTo dashes r1 with
    | none => none
    | some (b, r2) =>
      match capTo endLit (dropWs r2) with
      | none => none
      | some (d, r4) =>
        match capTo dashes r4 with
        | none => none
        | some (e, r5) => some ({ begin := b, data := d, end_ := e }, dropWs r5)

/-- Leftmost match of `PEM_SECTION` in `s`: the behaviour of
`Regex::captures`. -/
def findMatch : List Char → Option (Caps × List Char)
  | [] => none
  | c :: rest =>
    match matchAt (c :: rest) with
    | some r => some r
    | none => findMatch rest

/-- Fuelled iteration of `findMatch`; fuel larger than the input length
never runs out, because every match consumes input. -/
def findAllAux : Nat → List Char → List Caps
  | 0, _ => []
  | fuel + 1, s =>
    match findMatch s with
    | none => []
    | some (caps, rest) => caps :: findAllAux fuel rest

/-- All non-overlapping matches of `PEM_SECTION` in order: the behaviour
of `Regex::captures_iter`. -/
def findAll (s : List Char) : List Caps := findAllAux (s.length + 1) s

/-- Model of Rust `str::replace(pat, "")` for a one-character pattern:
remove every occurrence of the character. -/
def replaceChar (pat : Char) : List Char → List Char
  | [] => []
  | c :: rest => if c = pat then replaceChar pat rest else c :: replaceChar pat rest

/-- The whitespace stripping of `parse_helper`, line 112 of `lib.rs`:
`data.replace("\n", "").replace(" ", "")`. -/
def stripData (s : List Char) : List Char := replaceChar ' ' (replaceChar '\n' s)

/-- Value of one character of the standard base64 alphabet. -/
def b64Val (c : Char) : Option Nat :=
  if 'A' ≤ c ∧ c ≤ 'Z' then some (c.toNat - 65)
  else if 'a' ≤ c ∧ c ≤ 'z' then some (c.toNat - 71)
  else if '0' ≤ c ∧ c ≤ '9' then some (c.toNat + 4)
  else if c = '+' then some 62
  else if c = '/' then some 63
  else none

/-- Map `b64Val` over a list, failing on the first character outside the
alphabet. -/
def mapB64 : List Char → Option (List Nat)
  | [] => some []
  | c :: rest =>
    match b64Val c, mapB64 rest with
    | some v, some vs => some (v :: vs)
    | _, _ => none

/-- Reassemble 6-bit values into bytes; a trailing group of three or two
values (from one or two padding characters) yields two or one bytes, the
unused low bits being discarded. -/
def b64Combine : List Nat → List Nat
  | a :: b :: c :: d :: rest =>
    let v := ((a * 64 + b) * 64 + c) * 64 + d
    (v / 65536) :: (v / 256 % 256) :: (v % 256) :: b64Combine rest
  | [a, b, c] =>
    let v := (a * 64 + b) * 64 + c
    [v / 1024, v / 4 % 256]
  | [a, b] => [(a * 64 + b) / 16]
  | [_] => []
  | [] => []

/-- Length of the trailing run of `'='` padding characters. -/
def padLen (s : List Char) : Nat := (s.reverse.takeWhile (fun c => c = '=')).length

/-- Modelled from the spec: the base64 decoder is
`rustc_serialize::base64::FromBase64`, an external crate whose code is
not part of this repository.  Following section 4.3 of the spec, the
input decodes with the standard padded base64 alphabet and decoding
fails if the character count is not a multiple of 4, a character falls
outside the alphabet, or `'='` padding appears anywhere other than the
final one or two positions. -/
def from_base64 (s : List Char) : Option (List Nat) :=
  if s.length % 4 ≠ 0 then none
  else if 2 < padLen s then none
  else if (s.take (s.length - padLen s)).any (fun c => c = '=') then none
  else (mapB64 (s.take (s.length - padLen s))).map b64Combine

/-- A representation of Pem-encoded data: the `tag` from the opening
delimiter and the decoded `contents`. -/
structure Pem where
  tag : List Char
  contents : List Nat
deriving DecidableEq, Repr

/-- Model of `parse_helper`, lines 81-126 of `lib.rs`: reject the candidate when
the two labels differ, otherwise strip whitespace from the data capture
and base64-decode it. -/
def parse_helper (caps : Caps) : Option Pem :=
  if caps.begin = caps.end_ then
    match from_base64 (stripData caps.data) with
    | some c => some { tag := caps.begin, contents := c }
    | none => none
  else none

/-- Model of `parse`, lines 129-136 of `lib.rs`: run `parse_helper` on the first
match only. -/
def parse (input : String) : Option Pem :=
  match findMatch input.data with
  | some (caps, _) => parse_helper caps
  | none => none

/-- Model of `parse_many`, lines 139-149 of `lib.rs`: run `parse_helper` on every
match, keeping the successes in order. -/
def parse_many (input : String) : List Pem :=
  (findAll input.data).filterMap parse_helper

/-- One PEM section as written in an input text: opening label, body,
closing label. -/
structure Sec where
  labelB : List Char
  body : List Char
  labelE : List Char
deriving DecidableEq, Repr

/-- A label that contains no dash, so the lazy label capture stops
exactly at the closing bracket. -/
def goodLabel (l : List Char) : Prop := ∀ c ∈ l, c ≠ '-'

/-- A body character: not a dash (so the closing marker cannot occur
inside the body), and if whitespace then one of the two characters the
decoder strips. -/
def bodyChar (c : Char) : Prop :=
  c ≠ '-' ∧ (isWsChar c = true → c = '\n' ∨ c = ' ')

/-- A body whose every character is a `bodyChar`. -/
def goodBody (b : List Char) : Prop := ∀ c ∈ b, bodyChar c

/-- A syntactically well-formed section. -/
def goodSec (s : Sec) : Prop := goodLabel s.labelB ∧ goodBody s.body ∧ goodLabel s.labelE

/-- Render one section in the concrete input syntax. -/
def renderSec (s : Sec) : List Char :=
  beginLit ++ s.labelB ++ dashes ++ ['\n'] ++ s.body ++ ['\n'] ++
    endLit ++ s.labelE ++ dashes ++ ['\n']

/-- Render a list of sections one after the other. -/
def renderList : List Sec → List Char
  | [] => []
  | s :: ss => renderSec s ++ renderList ss

/-- The record one section contributes: its decoded payload when the
labels agree and the body decodes, nothing otherwise. -/
def sectionResult (s : Sec) : Option Pem :=
  if s.labelB = s.labelE then
    match from_base64 (stripData s.body) with
    | some c => some { tag := s.labelB, contents := c }
    | none => none
  else none

instance decGoodLabel (l : List Char) : Decidable (goodLabel l) := by
  unfold goodLabel
  infer_instance

instance decBodyChar (c : Char) : Decidable (bodyChar c) := by
  unfold bodyChar
  infer_instance

instance decGoodBody (b : List Char) : Decidable (goodBody b) := by
  unfold goodBody
  infer_instance

instance decGoodSec (s : Sec) : Decidable (goodSec s) := by
  unfold goodSec
  infer_instance

/-! ## Basic facts about literals and lazy captures -/

theorem isPrefixOf_append_self (l r : List Char) : l.isPrefixOf (l ++ r) = true := by
  induction l with
  | nil => simp [List.isPrefixOf]
  | cons a t ih => simp [List.isPrefixOf, ih]

theorem eq_append_drop_of_isPrefixOf {l s : List Char} (h : l.isPrefixOf s = true) :
    s = l ++ s.drop l.length := by
  induction l generalizing s with
  | nil => simp
  | cons a t ih =>
    cases s with
    | nil => simp [List.isPrefixOf] at h
    | cons b u =>
      simp only [List.isPrefixOf, Bool.and_eq_true, beq_iff_eq] at h
      obtain ⟨rfl, h2⟩ := h
      simpa using ih h2

theorem not_isPrefixOf_cons {c0 x : Char} (l t : List Char) (h : x ≠ c0) :
    (c0 :: l).isPrefixOf (x :: t) = false := by
  have hb : (c0 == x) = false := by
    simp only [beq_eq_false_iff_ne, ne_eq]
    exact fun hc => h hc.symm
  simp [List.isPrefixOf, hb]

theorem capTo_eq_append {lit s p r : List Char} (h : capTo lit s = some (p, r)) :
    s = p ++ (lit ++ r) := by
  induction s generalizing p r with
  | nil =>
    simp only [capTo] at h
    split at h
    · rename_i he
      injection h with h1
      injection h1 with h2 h3
      subst h2; subst h3
      have hl : lit = [] := List.isEmpty_iff.mp he
      simp [hl]
    · exact absurd h (by simp)
  | cons c rest ih =>
    simp only [capTo] at h
    split at h
    · rename_i hpre
      injection h with h1
      injection h1 with h2 h3
      subst h2; subst h3
      simpa using eq_append_drop_of_isPrefixOf hpre
    · cases hm : capTo lit rest with
      | none => rw [hm] at h; exact absurd h (by simp)
      | some pr =>
        obtain ⟨p', r'⟩ := pr
        rw [hm] at h
        injection h with h1
        injection h1 with h2 h3
        subst h2; subst h3
        simpa using ih hm

theorem capTo_min {lit s p r : List Char} (h : capTo lit s = some (p, r)) :
    ∀ p₁ r₁, s = p₁ ++ (lit ++ r₁) → p.length ≤ p₁.length := by
  induction s generalizing p r with
  | nil =>
    intro p₁ r₁ _
    simp only [capTo] at h
    split at h
    · injection h with h1
      injection h1 with h2 h3
      subst h2
      simp
    · exact absurd h (by simp)
  | cons c rest ih =>
    intro p₁ r₁ hs
    simp only [capTo] at h
    split at h
    · injection h with h1
      injection h1 with h2 h3
      subst h2
      simp
    · rename_i hpre
      cases hm : capTo lit rest with
      | none => rw [hm] at h; exact absurd h (by simp)
      | some pr =>
        obtain ⟨p', r'⟩ := pr
        rw [hm] at h
        injection h with h1
        injection h1 with h2 h3
        subst h2; subst h3
        cases p₁ with
        | nil =>
          exfalso
          simp only [List.nil_append] at hs
          rw [hs] at hpre
          exact hpre (isPrefixOf_append_self lit r₁)
        | cons c₁ p₁' =>
          simp only [List.cons_append, List.cons.injEq] at hs
          have := ih hm p₁' r₁ hs.2
          exact Nat.succ_le_succ this

theorem capTo_of_append (lit : List Char) (c0 : Char) (hc : lit.head? = some c0)
    (pre r : List Char) (hpre : ∀ x ∈ pre, x ≠ c0) :
    capTo lit (pre ++ (lit ++ r)) = some (pre, r) := by
  obtain ⟨lit', rfl⟩ : ∃ lit', lit = c0 :: lit' := by
    cases lit with
    | nil => simp at hc
    | cons a l' =>
      have ha : a = c0 := by simpa using hc
      exact ⟨l', by rw [ha]⟩
  induction pre with
  | nil =>
    simp only [List.nil_append, List.cons_append]
    rw [capTo]
    have hp : (c0 :: lit').isPrefixOf (c0 :: (lit' ++ r)) = true :=
      isPrefixOf_append_self (c0 :: lit') r
    rw [if_pos hp]
    have hd : List.drop (c0 :: lit').length (c0 :: (lit' ++ r)) = r :=
      List.drop_left (c0 :: lit') r
    rw [hd]
  | cons x pre' ih =>
    have hx : x ≠ c0 := hpre x (by simp)
    have hrest : ∀ y ∈ pre', y ≠ c0 := fun y hy => hpre y (by simp [hy])
    rw [List.cons_append, capTo]
    rw [if_neg (by simp [not_isPrefixOf_cons _ _ hx])]
    rw [ih hrest]

/-! ## Whitespace stripping -/

theorem replaceChar_eq_filter (pat : Char) (s : List Char) :
    replaceChar pat s = s.filter (fun c => !(c == pat)) := by
  induction s with
  | nil => rfl
  | cons c rest ih =>
    by_cases hc : c = pat
    · subst hc
      simp [replaceChar, List.filter_cons, ih]
    · have hb : (c == pat) = false := by simp [hc]
      simp [replaceChar, hc, List.filter_cons, hb, ih]

theorem stripData_eq_filter (s : List Char) :
    stripData s = s.filter (fun c => !(c == '\n') && !(c == ' ')) := by
  unfold stripData
  rw [replaceChar_eq_filter, replaceChar_eq_filter, List.filter_filter]
  exact List.filter_congr fun a _ => Bool.and_comm _ _

theorem stripData_append (s t : List Char) :
    stripData (s ++ t) = stripData s ++ stripData t := by
  simp [stripData_eq_filter, List.filter_append]

theorem stripData_cons_strip {c : Char} (h : c = '\n' ∨ c = ' ') (s : List Char) :
    stripData (c :: s) = stripData s := by
  rcases h with rfl | rfl <;> simp [stripData_eq_filter, List.filter_cons]

theorem stripData_cons_keep {c : Char} (h1 : c ≠ '\n') (h2 : c ≠ ' ') (s : List Char) :
    stripData (c :: s) = c :: stripData s := by
  have hb1 : (c == '\n') = false := by simp [h1]
  have hb2 : (c == ' ') = false := by simp [h2]
  simp [stripData_eq_filter, List.filter_cons, hb1, hb2]

/-! ## Base64 decoder facts -/

theorem mapB64_eq_none {s : List Char} {c : Char} (hm : c ∈ s) (hc : b64Val c = none) :
    mapB64 s = none := by
  induction s with
  | nil => simp at hm
  | cons a rest ih =>
    rcases List.mem_cons.mp hm with rfl | hmem
    · simp [mapB64, hc]
    · rw [mapB64]
      rw [ih hmem]
      cases b64Val a <;> rfl

theorem mem_pad_run {s : List Char} {c : Char}
    (hm : c ∈ s.drop (s.length - padLen s)) : c = '=' := by
  have hdecomp : s.reverse.takeWhile (fun c => c = '=') ++
      s.reverse.dropWhile (fun c => c = '=') = s.reverse :=
    List.takeWhile_append_dropWhile _ _
  set t := s.reverse.takeWhile (fun c => c = '=') with ht
  set d := s.reverse.dropWhile (fun c => c = '=') with hd
  have hs : s = d.reverse ++ t.reverse := by
    have h := congrArg List.reverse hdecomp
    simp at h
    exact h.symm
  have hpl : padLen s = t.length := by
    unfold padLen
    rw [ht]
  have hlen : s.length - padLen s = d.reverse.length := by
    rw [hpl, hs]
    simp
  rw [hlen, hs, List.drop_left] at hm
  have hmt : c ∈ t := List.mem_reverse.mp hm
  have := List.mem_takeWhile_imp hmt
  simpa using this

theorem from_base64_eq_none {s : List Char}
    (h : (∃ c ∈ s, b64Val c = none ∧ c ≠ '=') ∨
         s.length % 4 ≠ 0 ∨ 2 < padLen s ∨
         (s.take (s.length - padLen s)).any (fun c => c = '=') = true) :
    from_base64 s = none := by
  unfold from_base64
  by_cases h4 : s.length % 4 ≠ 0
  · rw [if_pos h4]
  rw [if_neg h4]
  by_cases hp : 2 < padLen s
  · rw [if_pos hp]
  rw [if_neg hp]
  by_cases he : (s.take (s.length - padLen s)).any (fun c => c = '=') = true
  · rw [if_pos he]
  rw [if_neg he]
  rcases h with ⟨c, hc, hval, hne⟩ | h4' | hp' | he'
  · have hbody : c ∈ s.take (s.length - padLen s) := by
      have hsplit := (List.take_append_drop (s.length - padLen s) s) ▸ hc
      rcases List.mem_append.mp hsplit with h1 | h2
      · exact h1
      · exact absurd (mem_pad_run h2) hne
    rw [mapB64_eq_none hbody hval]
    rfl
  · exact absurd h4' h4
  · exact absurd hp' hp
  · exact absurd he' he

/-! ## Every match consumes at least the four literals -/

theorem dropLit_eq {lit s r : List Char} (h : dropLit lit s = some r) : s = lit ++ r := by
  unfold dropLit at h
  split at h
  · rename_i hp
    injection h with h1
    subst h1
    exact eq_append_drop_of_isPrefixOf hp
  · exact absurd h (by simp)

theorem capTo_length {lit s p r : List Char} (h : capTo lit s = some (p, r)) :
    r.length + lit.length ≤ s.length := by
  have hs := capTo_eq_append h
  rw [hs]
  simp [List.length_append]
  omega

theorem dropWs_length (s : List Char) : (dropWs s).length ≤ s.length := by
  unfold dropWs
  induction s with
  | nil => simp
  | cons c rest ih =>
    rw [List.dropWhile_cons]
    split
    · exact Nat.le_trans ih (by simp)
    · simp

theorem matchAt_le {s : List Char} {caps : Caps} {rest : List Char}
    (h : matchAt s = some (caps, rest)) : rest.length + 30 ≤ s.length := by
  unfold matchAt at h
  cases h1 : dropLit beginLit s with
  | none => rw [h1] at h; exact absurd h (by simp)
  | some r1 =>
    rw [h1] at h
    dsimp only at h
    cases h2 : capTo dashes r1 with
    | none => rw [h2] at h; exact absurd h (by simp)
    | some br2 =>
      obtain ⟨b, r2⟩ := br2
      rw [h2] at h
      dsimp only at h
      cases h3 : capTo endLit (dropWs r2) with
      | none => rw [h3] at h; exact absurd h (by simp)
      | some dr4 =>
        obtain ⟨d, r4⟩ := dr4
        rw [h3] at h
        dsimp only at h
        cases h4 : capTo dashes r4 with
        | none => rw [h4] at h; exact absurd h (by simp)
        | some er5 =>
          obtain ⟨e, r5⟩ := er5
          rw [h4] at h
          dsimp only at h
          injection h with h'
          have hrest : rest = dropWs r5 := (congrArg Prod.snd h').symm
          have l1 : s.length = beginLit.length + r1.length := by
            rw [dropLit_eq h1]; simp
          have l2 := capTo_length h2
          have l3 := capTo_length h3
          have l4 := capTo_length h4
          have l5 : (dropWs r2).length ≤ r2.length := dropWs_length r2
          have l6 : (dropWs r5).length ≤ r5.length := dropWs_length r5
          have hb : beginLit.length = 11 := rfl
          have hd5 : dashes.length = 5 := rfl
          have he9 : endLit.length = 9 := rfl
          rw [hrest]
          omega

theorem findMatch_le {s : List Char} {caps : Caps} {rest : List Char}
    (h : findMatch s = some (caps, rest)) : rest.length + 30 ≤ s.length := by
  induction s with
  | nil => simp [findMatch] at h
  | cons c t ih =>
    rw [findMatch] at h
    cases hm : matchAt (c :: t) with
    | some r =>
      rw [hm] at h
      injection h with h'
      rw [h'] at hm
      exact matchAt_le hm
    | none =>
      rw [hm] at h
      have := ih h
      exact Nat.le_trans this (by simp)

theorem findMatch_of_matchAt {s : List Char} {r : Caps × List Char}
    (h : matchAt s = some r) : findMatch s = some r := by
  cases s with
  | nil =>
    rw [show matchAt [] = none from rfl] at h
    exact absurd h (by simp)
  | cons c t => rw [findMatch, h]

theorem findAllAux_congr : ∀ (f₁ f₂ : Nat) (s : List Char),
    s.length < f₁ → s.length < f₂ → findAllAux f₁ s = findAllAux f₂ s := by
  intro f₁
  induction f₁ with
  | zero => intro f₂ s h1 _; exact absurd h1 (Nat.not_lt_zero _)
  | succ f ih =>
    intro f₂ s h1 h2
    cases f₂ with
    | zero => exact absurd h2 (Nat.not_lt_zero _)
    | succ f₂' =>
      rw [findAllAux, findAllAux]
      cases hm : findMatch s with
      | none => rfl
      | some cr =>
        obtain ⟨caps, rest⟩ := cr
        have hlt := findMatch_le hm
        have hf : rest.length < f := by omega
        have hf₂ : rest.length < f₂' := by omega
        dsimp only
        rw [ih f₂' rest hf hf₂]

theorem findAll_eq_cons {s : List Char} {caps : Caps} {rest : List Char}
    (h : findMatch s = some (caps, rest)) : findAll s = caps :: findAll rest := by
  unfold findAll
  rw [findAllAux, h]
  have hlt := findMatch_le h
  dsimp only
  rw [findAllAux_congr s.length (rest.length + 1) rest (by omega) (by omega)]

theorem findAll_eq_nil {s : List Char} (h : findMatch s = none) : findAll s = [] := by
  unfold findAll
  rw [findAllAux, h]

theorem findMatch_eq_none {s : List Char}
    (h : ∀ i, ¬ beginLit.isPrefixOf (s.drop i) = true) : findMatch s = none := by
  induction s with
  | nil => rfl
  | cons c t ih =>
    rw [findMatch]
    have hm : matchAt (c :: t) = none := by
      unfold matchAt dropLit
      rw [if_neg (by simpa using h 0)]
    rw [hm]
    exact ih (fun i => by simpa using h (i + 1))

/-! ## Behaviour of the scanner on well-formed sections -/

theorem isWs_nl : isWsChar '\n' = true := rfl

theorem isWs_sp : isWsChar ' ' = true := rfl

theorem isWs_dash : isWsChar '-' = false := rfl

theorem dropLit_append (lit r : List Char) : dropLit lit (lit ++ r) = some r := by
  unfold dropLit
  rw [if_pos (isPrefixOf_append_self lit r), List.drop_left]

theorem dropWs_cons_nl (t : List Char) : dropWs ('\n' :: t) = dropWs t := by
  unfold dropWs
  rw [List.dropWhile_cons, if_pos isWs_nl]

theorem dropWs_body {b : List Char} (E : List Char) (hb : goodBody b)
    {E' : List Char} (hE : E = '-' :: E') :
    ∃ d, dropWs (b ++ '\n' :: E) = d ++ E ∧ stripData d = stripData b ∧
      ∀ c ∈ d, c ≠ '-' := by
  induction b with
  | nil =>
    refine ⟨[], ?_, rfl, by simp⟩
    subst hE
    unfold dropWs
    rw [List.nil_append, List.dropWhile_cons, if_pos isWs_nl,
      List.dropWhile_cons, if_neg (by simp [isWs_dash])]
    simp
  | cons c b' ih =>
    have hc : bodyChar c := hb c (by simp)
    by_cases hw : isWsChar c = true
    · have hcs : c = '\n' ∨ c = ' ' := hc.2 hw
      obtain ⟨d, hd1, hd2, hd3⟩ := ih (fun x hx => hb x (by simp [hx]))
      refine ⟨d, ?_, ?_, hd3⟩
      · rw [List.cons_append]
        unfold dropWs
        rw [List.dropWhile_cons, if_pos hw]
        exact hd1
      · rw [stripData_cons_strip hcs, hd2]
    · refine ⟨c :: (b' ++ ['\n']), ?_, ?_, ?_⟩
      · rw [List.cons_append]
        unfold dropWs
        rw [List.dropWhile_cons, if_neg hw]
        simp [List.append_assoc]
      · have h1 : c ≠ '\n' := fun hh => hw (hh ▸ isWs_nl)
        have h2 : c ≠ ' ' := fun hh => hw (hh ▸ isWs_sp)
        rw [stripData_cons_keep h1 h2, stripData_append, stripData_cons_keep h1 h2]
        simp [show stripData ['\n'] = [] from rfl]
      · intro x hx
        rcases List.mem_cons.mp hx with rfl | hx2
        · exact hc.1
        rcases List.mem_append.mp hx2 with hx3 | hx4
        · exact (hb x (by simp [hx3])).1
        · simp at hx4
          subst hx4
          intro hcon
          exact absurd hcon (by decide)

theorem dropWs_dash_head {u v : List Char} (h : u = '-' :: v) : dropWs u = u := by
  subst h
  unfold dropWs
  rw [List.dropWhile_cons, if_neg (by simp [isWs_dash])]

theorem matchAt_renderSec (sec : Sec) (rest : List Char)
    (h1 : goodLabel sec.labelB) (h2 : goodBody sec.body) (h3 : goodLabel sec.labelE)
    (hrest : dropWs rest = rest) :
    ∃ d, matchAt (renderSec sec ++ rest) =
        some ({ begin := sec.labelB, data := d, end_ := sec.labelE }, rest) ∧
      stripData d = stripData sec.body ∧ ∀ c ∈ d, c ≠ '-' := by
  have hshape : renderSec sec ++ rest =
      beginLit ++ (sec.labelB ++ (dashes ++ ('\n' :: (sec.body ++ ('\n' ::
        (endLit ++ (sec.labelE ++ (dashes ++ ('\n' :: rest))))))))) := by
    unfold renderSec
    simp [List.append_assoc]
  obtain ⟨d, hd1, hd2, hd3⟩ :=
    dropWs_body (endLit ++ (sec.labelE ++ (dashes ++ ('\n' :: rest)))) h2 rfl
  refine ⟨d, ?_, hd2, hd3⟩
  rw [hshape]
  unfold matchAt
  rw [dropLit_append]
  dsimp only
  rw [capTo_of_append dashes '-' rfl sec.labelB _ h1]
  dsimp only
  rw [dropWs_cons_nl, hd1]
  rw [capTo_of_append endLit '-' rfl d _ hd3]
  dsimp only
  rw [capTo_of_append dashes '-' rfl sec.labelE _ h3]
  dsimp only
  rw [dropWs_cons_nl, hrest]

theorem renderList_ws (ss : List Sec) : dropWs (renderList ss) = renderList ss := by
  cases ss with
  | nil => rfl
  | cons s t => exact dropWs_dash_head rfl

theorem findAll_filterMap_renderList (ss : List Sec) (h : ∀ s ∈ ss, goodSec s) :
    (findAll (renderList ss)).filterMap parse_helper = ss.filterMap sectionResult := by
  induction ss with
  | nil =>
    have h0 : findMatch ([] : List Char) = none := rfl
    rw [show renderList [] = [] from rfl, findAll_eq_nil h0]
    rfl
  | cons s t ih =>
    obtain ⟨hB, hbody, hE⟩ : goodSec s := h s (by simp)
    obtain ⟨d, hm, hd2, _⟩ := matchAt_renderSec s (renderList t) hB hbody hE (renderList_ws t)
    have hfm : findMatch (renderList (s :: t)) =
        some ({ begin := s.labelB, data := d, end_ := s.labelE }, renderList t) :=
      findMatch_of_matchAt hm
    rw [findAll_eq_cons hfm]
    rw [List.filterMap_cons, List.filterMap_cons]
    have hph : parse_helper { begin := s.labelB, data := d, end_ := s.labelE } =
        sectionResult s := by
      unfold parse_helper sectionResult
      dsimp only
      rw [hd2]
    rw [hph, ih (fun x hx => h x (by simp [hx]))]

theorem parse_many_renderList (ss : List Sec) (h : ∀ s ∈ ss, goodSec s) :
    parse_many (String.mk (renderList ss)) = ss.filterMap sectionResult := by
  unfold parse_many
  exact findAll_filterMap_renderList ss h

/-! ## Remaining support lemmas -/

theorem no_beginLit_no_match {s : List Char} (h : ¬ beginLit <:+: s) :
    findMatch s = none := by
  apply findMatch_eq_none
  intro i hpre
  apply h
  show ∃ u v, u ++ beginLit ++ v = s
  refine ⟨s.take i, (s.drop i).drop beginLit.length, ?_⟩
  have hdec := eq_append_drop_of_isPrefixOf hpre
  calc s.take i ++ beginLit ++ (s.drop i).drop beginLit.length
      = s.take i ++ (beginLit ++ (s.drop i).drop beginLit.length) := by
        rw [List.append_assoc]
    _ = s.take i ++ s.drop i := by rw [← hdec]
    _ = s := List.take_append_drop i s

theorem parse_helper_inv {caps : Caps} {pem : Pem} (h : parse_helper caps = some pem) :
    caps.begin = caps.end_ ∧ pem.tag = caps.begin ∧
      from_base64 (stripData caps.data) = some pem.contents := by
  unfold parse_helper at h
  split at h
  · rename_i heq
    cases hb : from_base64 (stripData caps.data) with
    | none => rw [hb] at h; exact absurd h (by simp)
    | some c =>
      rw [hb] at h
      dsimp only at h
      injection h with h'
      refine ⟨heq, ?_, ?_⟩
      · rw [← h']
      · rw [← h']
  · exact absurd h (by simp)

theorem dropWs_decomp (s : List Char) :
    s = s.takeWhile isWsChar ++ dropWs s ∧
      ∀ c ∈ s.takeWhile isWsChar, isWsChar c = true :=
  ⟨(List.takeWhile_append_dropWhile _ _).symm, fun _ hc => List.mem_takeWhile_imp hc⟩

theorem filterMap_sectionResult_map {ss : List (List Char × List Char)}
    (h : ∀ p ∈ ss, (from_base64 (stripData p.2)).isSome = true) :
    (ss.map fun p => ({ labelB := p.1, body := p.2, labelE := p.1 } : Sec)).filterMap
        sectionResult =
      ss.map fun p =>
        ({ tag := p.1, contents := (from_base64 (stripData p.2)).getD [] } : Pem) := by
  induction ss with
  | nil => rfl
  | cons p t ih =>
    rw [List.map_cons, List.filterMap_cons]
    have hp := h p (by simp)
    cases hb : from_base64 (stripData p.2) with
    | none => rw [hb] at hp; simp at hp
    | some v =>
      have hsr : sectionResult { labelB := p.1, body := p.2, labelE := p.1 } =
          some { tag := p.1, contents := v } := by
        unfold sectionResult
        dsimp only
        rw [if_pos rfl, hb]
      rw [hsr]
      dsimp only
      rw [List.map_cons, ih (fun q hq => h q (by simp [hq]))]
      congr 1
      rw [hb]
      rfl

theorem findAllAux_length (fuel : Nat) :
    ∀ s : List Char, 30 * (findAllAux fuel s).length ≤ s.length := by
  induction fuel with
  | zero => intro s; simp [findAllAux]
  | succ f ih =>
    intro s
    rw [findAllAux]
    cases hm : findMatch s with
    | none => simp
    | some cr =>
      obtain ⟨caps, rest⟩ := cr
      dsimp only
      have h1 := findMatch_le hm
      have h2 := ih rest
      simp only [List.length_cons]
      omega

/-! ## The claims -/

/-- Claim C1: when the first scanned candidate is rejected by
`parse_helper` (label mismatch or failed decode), `parse` returns `none`:
it never continues to a later candidate, whatever else the input
contains. -/
theorem C1_parse_stops_at_first_candidate (input : String) (caps : Caps)
    (hscan : (findMatch input.data).map Prod.fst = some caps)
    (hrej : parse_helper caps = none) :
    parse input = none := by
  cases hm : findMatch input.data with
  | none => unfold parse; rw [hm]
  | some cr =>
    obtain ⟨c, r⟩ := cr
    rw [hm] at hscan
    dsimp only [Option.map] at hscan
    injection hscan with h'
    subst h'
    unfold parse
    rw [hm]
    dsimp only
    exact hrej

/-- Witness for C1: the first section has labels `A`/`B` and is dropped,
and `parse` returns `none` even though the second section is fully valid,
as `parse_many` on the same input shows. -/
theorem C1_witness :
    parse "-----BEGIN A-----\nQQ==\n-----END B-----\n-----BEGIN C-----\nQQ==\n-----END C-----\n" = none ∧
    parse_many "-----BEGIN A-----\nQQ==\n-----END B-----\n-----BEGIN C-----\nQQ==\n-----END C-----\n" =
      [{ tag := ['C'], contents := [65] }] :=
  ⟨C1_parse_stops_at_first_candidate _
      { begin := ['A'], data := ['Q', 'Q', '=', '=', '\n'], end_ := ['B'] }
      (by decide) (by decide),
    by decide⟩

/-- Claim C2: an input consisting of sections whose label pairs match and
whose bodies decode yields from `parse_many` exactly one record per
section, in input order; an input in which the opening marker
`-----BEGIN ` never occurs yields `none` from `parse` and `[]` from
`parse_many`. -/
theorem C2_parse_many_complete :
    (∀ ss : List (List Char × List Char),
        (∀ p ∈ ss, goodLabel p.1 ∧ goodBody p.2 ∧
          (from_base64 (stripData p.2)).isSome = true) →
        parse_many (String.mk (renderList
            (ss.map fun p => { labelB := p.1, body := p.2, labelE := p.1 }))) =
          ss.map fun p =>
            { tag := p.1, contents := (from_base64 (stripData p.2)).getD [] }) ∧
    (∀ input : String, ¬ beginLit <:+: input.data →
        parse input = none ∧ parse_many input = []) := by
  constructor
  · intro ss hss
    have hgood : ∀ s ∈ ss.map fun p =>
        ({ labelB := p.1, body := p.2, labelE := p.1 } : Sec), goodSec s := by
      intro s hs
      obtain ⟨p, hp, rfl⟩ := List.mem_map.mp hs
      obtain ⟨hl, hb, _⟩ := hss p hp
      exact ⟨hl, hb, hl⟩
    rw [parse_many_renderList _ hgood]
    exact filterMap_sectionResult_map (fun p hp => (hss p hp).2.2)
  · intro input hinf
    have hfm : findMatch input.data = none := no_beginLit_no_match hinf
    constructor
    · unfold parse; rw [hfm]
    · unfold parse_many
      rw [findAll_eq_nil hfm]
      rfl

/-- Witness for C2: one well-formed section produces its one record, and
an input with no opening marker produces nothing from either entry
point. -/
theorem C2_witness :
    parse_many (String.mk (renderList
        ([(['A'], ['Q', 'Q', '=', '='])].map fun p =>
          { labelB := p.1, body := p.2, labelE := p.1 }))) =
      [{ tag := ['A'], contents := [65] }] ∧
    parse "no sections here" = none ∧ parse_many "no sections here" = [] := by
  refine ⟨?_, ?_, ?_⟩
  · rw [C2_parse_many_complete.1 [(['A'], ['Q', 'Q', '=', '='])] (by decide)]
    decide
  · exact (C2_parse_many_complete.2 "no sections here" (by decide)).1
  · exact (C2_parse_many_complete.2 "no sections here" (by decide)).2

/-- Claim C3: a section whose opening and closing labels differ
contributes no record: with it present, `parse_many` returns exactly the
records of the surrounding sections, and when it is the first section
`parse` returns `none`; no error of any kind is produced, both entry
points keeping their ordinary result types. -/
theorem C3_mismatched_labels_dropped (pre post : List Sec) (bad : Sec)
    (hpre : ∀ s ∈ pre, goodSec s) (hpost : ∀ s ∈ post, goodSec s)
    (hbad : goodSec bad) (hne : bad.labelB ≠ bad.labelE) :
    parse_many (String.mk (renderList (pre ++ bad :: post))) =
      parse_many (String.mk (renderList pre)) ++
        parse_many (String.mk (renderList post)) ∧
    parse (String.mk (renderList (bad :: post))) = none := by
  have hbadres : sectionResult bad = none := by
    unfold sectionResult
    rw [if_neg hne]
  constructor
  · have hall : ∀ s ∈ pre ++ bad :: post, goodSec s := by
      intro s hs
      rcases List.mem_append.mp hs with h1 | h2
      · exact hpre s h1
      rcases List.mem_cons.mp h2 with rfl | h3
      · exact hbad
      · exact hpost s h3
    rw [parse_many_renderList _ hall, parse_many_renderList _ hpre,
      parse_many_renderList _ hpost]
    rw [List.filterMap_append, List.filterMap_cons, hbadres]
  · obtain ⟨hB, hbody, hE⟩ := hbad
    obtain ⟨d, hm, hd2, _⟩ :=
      matchAt_renderSec bad (renderList post) hB hbody hE (renderList_ws post)
    have hfm : findMatch (renderList (bad :: post)) =
        some ({ begin := bad.labelB, data := d, end_ := bad.labelE }, renderList post) :=
      findMatch_of_matchAt hm
    unfold parse
    rw [show (String.mk (renderList (bad :: post))).data =
      renderList (bad :: post) from rfl, hfm]
    dsimp only
    unfold parse_helper
    dsimp only
    rw [if_neg hne]

/-- Witness for C3: a mismatched `X`/`Y` section between two valid ones
contributes nothing to `parse_many`, and `parse` of an input starting
with the mismatched section is `none`. -/
theorem C3_witness :
    parse_many (String.mk (renderList
        ([{ labelB := ['A'], body := ['Q', 'Q', '=', '='], labelE := ['A'] }] ++
          { labelB := ['X'], body := ['Q', 'Q', '=', '='], labelE := ['Y'] } ::
          [{ labelB := ['C'], body := ['Q', 'Q', '=', '='], labelE := ['C'] }]))) =
      parse_many (String.mk (renderList
        [{ labelB := ['A'], body := ['Q', 'Q', '=', '='], labelE := ['A'] }])) ++
        parse_many (String.mk (renderList
          [{ labelB := ['C'], body := ['Q', 'Q', '=', '='], labelE := ['C'] }])) ∧
    parse (String.mk (renderList
        ({ labelB := ['X'], body := ['Q', 'Q', '=', '='], labelE := ['Y'] } ::
          [{ labelB := ['C'], body := ['Q', 'Q', '=', '='], labelE := ['C'] }]))) = none :=
  C3_mismatched_labels_dropped _ _ _ (by decide) (by decide) (by decide) (by decide)

/-- Claim C4: the whitespace stripping before decoding removes exactly
the newline characters and the plain spaces and no other character; a
horizontal tab survives it, and so does a carriage return. -/
theorem C4_strip_newline_space_only :
    (∀ s : List Char, stripData s = s.filter (fun c => !(c == '\n') && !(c == ' '))) ∧
    stripData ['\t'] = ['\t'] ∧ stripData ['\r'] = ['\r'] :=
  ⟨stripData_eq_filter, rfl, rfl⟩

/-- Claim C5 (amended): every successful match decomposes the input into
the four literal markers, the three captures, and two consumed whitespace
runs, so each capture is an exact contiguous substring of the input; the
body capture is the shortest span ending at an occurrence of the closing
marker, measured from the end of the whitespace run that the scanner
consumes directly after the opening label's closing bracket — that
leading whitespace is consumed and excluded from the body capture. -/
theorem C5_scanner_decomposition {s : List Char} {caps : Caps} {rest : List Char}
    (h : matchAt s = some (caps, rest)) :
    ∃ ws₁ ws₂,
      s = beginLit ++ (caps.begin ++ (dashes ++ (ws₁ ++ (caps.data ++ (endLit ++
        (caps.end_ ++ (dashes ++ (ws₂ ++ rest)))))))) ∧
      (∀ c ∈ ws₁, isWsChar c = true) ∧ (∀ c ∈ ws₂, isWsChar c = true) ∧
      (∀ p r₁, caps.data ++ (endLit ++ (caps.end_ ++ (dashes ++ (ws₂ ++ rest)))) =
          p ++ (endLit ++ r₁) → caps.data.length ≤ p.length) := by
  unfold matchAt at h
  cases h1 : dropLit beginLit s with
  | none => rw [h1] at h; exact absurd h (by simp)
  | some r1 =>
    rw [h1] at h
    dsimp only at h
    cases h2 : capTo dashes r1 with
    | none => rw [h2] at h; exact absurd h (by simp)
    | some br2 =>
      obtain ⟨b, r2⟩ := br2
      rw [h2] at h
      dsimp only at h
      cases h3 : capTo endLit (dropWs r2) with
      | none => rw [h3] at h; exact absurd h (by simp)
      | some dr4 =>
        obtain ⟨d, r4⟩ := dr4
        rw [h3] at h
        dsimp only at h
        cases h4 : capTo dashes r4 with
        | none => rw [h4] at h; exact absurd h (by simp)
        | some er5 =>
          obtain ⟨e, r5⟩ := er5
          rw [h4] at h
          dsimp only at h
          injection h with h'
          have hcaps : ({ begin := b, data := d, end_ := e } : Caps) = caps :=
            congrArg Prod.fst h'
          have hrest : dropWs r5 = rest := congrArg Prod.snd h'
          subst hcaps
          subst hrest
          have e1 := dropLit_eq h1
          have e2 := capTo_eq_append h2
          have e3 := capTo_eq_append h3
          have e4 := capTo_eq_append h4
          have d2 := (dropWs_decomp r2).1
          have d5 := (dropWs_decomp r5).1
          have w2mem := (dropWs_decomp r5).2
          have w1mem := (dropWs_decomp r2).2
          set w1 := r2.takeWhile isWsChar with hw1
          set w2 := r5.takeWhile isWsChar with hw2
          rw [e3] at d2
          refine ⟨w1, w2, ?_, w1mem, w2mem, ?_⟩
          · rw [e1, e2, d2, e4]
            nth_rewrite 1 [d5]
            rfl
          · intro p r₁ hp
            refine capTo_min h3 p r₁ ?_
            rw [e3, e4]
            nth_rewrite 1 [d5]
            exact hp

/-- Witness for C5 (amended) at a concrete one-section input: the
decomposition exists, with the body capture `QQ==\n`. -/
theorem C5_witness :
    ∃ ws₁ ws₂,
      "-----BEGIN A-----\nQQ==\n-----END A-----".data =
        beginLit ++ (['A'] ++ (dashes ++ (ws₁ ++ (['Q', 'Q', '=', '=', '\n'] ++ (endLit ++
          (['A'] ++ (dashes ++ (ws₂ ++ ([] : List Char))))))))) ∧
      (∀ c ∈ ws₁, isWsChar c = true) ∧ (∀ c ∈ ws₂, isWsChar c = true) ∧
      (∀ p r₁,
        ['Q', 'Q', '=', '=', '\n'] ++ (endLit ++ (['A'] ++ (dashes ++ (ws₂ ++ ([] : List Char))))) =
          p ++ (endLit ++ r₁) →
        (['Q', 'Q', '=', '=', '\n'] : List Char).length ≤ p.length) :=
  C5_scanner_decomposition
    (show matchAt "-----BEGIN A-----\nQQ==\n-----END A-----".data =
      some ({ begin := ['A'], data := ['Q', 'Q', '=', '=', '\n'], end_ := ['A'] }, [])
      by decide)

/-- Claim C5 as stated is false at this input: the span of the input
lying between the opening label's closing bracket and the next closing
marker is `"\nQQ==\n"`, but the scanner's body capture is `"QQ==\n"` —
the leading newline is consumed by the whitespace element that follows
the opening bracket in the pattern, so the capture is not that span
untrimmed. -/
theorem C5_counterexample :
    (findMatch "-----BEGIN A-----\nQQ==\n-----END A-----".data).map
        (fun r => r.1.data) = some ['Q', 'Q', '=', '=', '\n'] ∧
    "-----BEGIN A-----\nQQ==\n-----END A-----".data =
      beginLit ++ (['A'] ++ (dashes ++ (['\n', 'Q', 'Q', '=', '=', '\n'] ++
        (endLit ++ (['A'] ++ dashes))))) ∧
    (['Q', 'Q', '=', '=', '\n'] : List Char) ≠ ['\n', 'Q', 'Q', '=', '=', '\n'] :=
  ⟨by decide, by decide, by decide⟩

/-- Claim C6: when the stripped body of a candidate has a character
outside the padded base64 alphabet, or a length that is not a multiple of
four, or `'='` padding outside the final positions, decoding fails and
`parse_helper` drops the candidate, producing the very same `none` that a
label mismatch produces — the caller cannot tell the two failures
apart. -/
theorem C6_decode_failure_drops (caps : Caps)
    (hbad : (∃ c ∈ stripData caps.data, b64Val c = none ∧ c ≠ '=') ∨
            (stripData caps.data).length % 4 ≠ 0 ∨
            2 < padLen (stripData caps.data) ∨
            ((stripData caps.data).take ((stripData caps.data).length -
              padLen (stripData caps.data))).any (fun c => c = '=') = true) :
    from_base64 (stripData caps.data) = none ∧ parse_helper caps = none ∧
      ∀ caps' : Caps, caps'.begin ≠ caps'.end_ →
        parse_helper caps = parse_helper caps' := by
  have hnone := from_base64_eq_none hbad
  have hph : parse_helper caps = none := by
    unfold parse_helper
    split
    · rw [hnone]
    · rfl
  refine ⟨hnone, hph, ?_⟩
  intro caps' hne
  rw [hph]
  unfold parse_helper
  rw [if_neg hne]

/-- Witness for C6: a candidate whose body holds `'!'`, outside the
alphabet, decodes to nothing and is dropped. -/
theorem C6_witness :
    from_base64 (stripData (Caps.mk ['A'] ['Q', '!', 'A', 'B'] ['A']).data) = none ∧
    parse_helper (Caps.mk ['A'] ['Q', '!', 'A', 'B'] ['A']) = none :=
  ⟨(C6_decode_failure_drops (Caps.mk ['A'] ['Q', '!', 'A', 'B'] ['A']) (by decide)).1,
   (C6_decode_failure_drops (Caps.mk ['A'] ['Q', '!', 'A', 'B'] ['A']) (by decide)).2.1⟩

/-- Claim C7: provenance of every record: a record from `parse` comes
from the first scanned candidate and one from `parse_many` from some
scanned candidate; in both cases that candidate's two labels are equal,
the record's tag is verbatim the opening label, and the contents are
exactly the successful decoding of the stripped body — no partially
valid record exists. -/
theorem C7_record_provenance (input : String) :
    (∀ pem : Pem, parse input = some pem →
      ∃ caps rest, findMatch input.data = some (caps, rest) ∧
        caps.begin = caps.end_ ∧ pem.tag = caps.begin ∧
        from_base64 (stripData caps.data) = some pem.contents) ∧
    (∀ pem ∈ parse_many input,
      ∃ caps ∈ findAll input.data,
        caps.begin = caps.end_ ∧ pem.tag = caps.begin ∧
        from_base64 (stripData caps.data) = some pem.contents) := by
  constructor
  · intro pem hp
    unfold parse at hp
    cases hm : findMatch input.data with
    | none => rw [hm] at hp; exact absurd hp (by simp)
    | some cr =>
      obtain ⟨caps, rest⟩ := cr
      rw [hm] at hp
      dsimp only at hp
      obtain ⟨hl, ht, hc⟩ := parse_helper_inv hp
      exact ⟨caps, rest, rfl, hl, ht, hc⟩
  · intro pem hp
    unfold parse_many at hp
    obtain ⟨caps, hc, hph⟩ := List.mem_filterMap.mp hp
    obtain ⟨hl, ht, hco⟩ := parse_helper_inv hph
    exact ⟨caps, hc, hl, ht, hco⟩

/-- Witness for C7 at a concrete valid input and its record. -/
theorem C7_witness :
    (∃ caps rest,
      findMatch "-----BEGIN A-----\nQQ==\n-----END A-----".data = some (caps, rest) ∧
      caps.begin = caps.end_ ∧ (Pem.mk ['A'] [65]).tag = caps.begin ∧
      from_base64 (stripData caps.data) = some (Pem.mk ['A'] [65]).contents) ∧
    (∃ caps ∈ findAll "-----BEGIN A-----\nQQ==\n-----END A-----".data,
      caps.begin = caps.end_ ∧ (Pem.mk ['A'] [65]).tag = caps.begin ∧
      from_base64 (stripData caps.data) = some (Pem.mk ['A'] [65]).contents) :=
  ⟨(C7_record_provenance "-----BEGIN A-----\nQQ==\n-----END A-----").1
      (Pem.mk ['A'] [65]) (by decide),
   (C7_record_provenance "-----BEGIN A-----\nQQ==\n-----END A-----").2
      (Pem.mk ['A'] [65]) (by decide)⟩

/-- Claim C8: whenever `parse` returns a record, `parse_many` on the same
input returns a non-empty sequence whose head is that very record — same
tag and same contents. -/
theorem C8_parse_head_of_parse_many (input : String) (pem : Pem)
    (h : parse input = some pem) :
    ∃ rest, parse_many input = pem :: rest := by
  unfold parse at h
  cases hm : findMatch input.data with
  | none => rw [hm] at h; exact absurd h (by simp)
  | some cr =>
    obtain ⟨caps, r⟩ := cr
    rw [hm] at h
    dsimp only at h
    refine ⟨(findAll r).filterMap parse_helper, ?_⟩
    unfold parse_many
    rw [findAll_eq_cons hm, List.filterMap_cons, h]

/-- Witness for C8 at a two-section input: the record `parse` returns
heads the list `parse_many` returns. -/
theorem C8_witness :
    ∃ rest,
      parse_many "-----BEGIN A-----\nQQ==\n-----END A-----\n-----BEGIN C-----\nRg==\n-----END C-----\n" =
        { tag := ['A'], contents := [65] } :: rest :=
  C8_parse_head_of_parse_many
    "-----BEGIN A-----\nQQ==\n-----END A-----\n-----BEGIN C-----\nRg==\n-----END C-----\n"
    { tag := ['A'], contents := [65] } (by decide)

/-- Claim C9: both entry points are pure functions of the input text —
the embedding threads no state of any kind — so two invocations on the
same input yield identical results, same presence, same tags, same
payload bytes. -/
theorem C9_deterministic (i j : String) (h : i = j) :
    parse i = parse j ∧ parse_many i = parse_many j := by
  subst h
  exact ⟨rfl, rfl⟩

/-- Witness for C9: two invocations on one concrete input agree. -/
theorem C9_witness :
    parse "-----BEGIN A-----\nQQ==\n-----END A-----" =
      parse "-----BEGIN A-----\nQQ==\n-----END A-----" ∧
    parse_many "-----BEGIN A-----\nQQ==\n-----END A-----" =
      parse_many "-----BEGIN A-----\nQQ==\n-----END A-----" :=
  C9_deterministic _ _ rfl

/-- Claim C10: both entry points are total functions of the input: on
every input `parse` yields an answer (`none` or a record) and
`parse_many` yields a finite list, every failure path producing `none` or
omitting a candidate; quantitatively every counted match consumes at
least 30 input characters, so the number of records is bounded by the
input length. -/
theorem C10_total (input : String) :
    (parse input = none ∨ ∃ p, parse input = some p) ∧
    30 * (parse_many input).length ≤ input.data.length := by
  constructor
  · cases h : parse input with
    | none => exact Or.inl rfl
    | some p => exact Or.inr ⟨p, rfl⟩
  · have h1 : (parse_many input).length ≤
        (findAllAux (input.data.length + 1) input.data).length :=
      List.length_filterMap_le _ _
    have h2 := findAllAux_length (input.data.length + 1) input.data
    omega
